import Mathlib

/- Formal model of the log anomaly detection service
   (src/python-service/app): the threshold decision rule `predict_log`
   of interface.py and the `/predict` HTTP handler of main.py.
   Python floats are modelled as rationals; a Python dict is an
   association list in insertion order whose keys are pairwise
   distinct. -/

namespace AnomalyDetection

/-- ProbabilityDistribution: the dict `probs : label -> score` built at
interface.py line 22, kept as an association list in insertion order. -/
abbrev Dist := List (String × ℚ)

/-- Key uniqueness, the defining property of a Python dict. -/
abbrev isDict (d : Dist) : Prop := (d.map Prod.fst).Nodup

/-- Python dict access `probs[k]` / `probs.get(k)`: the binding of `k`,
`none` when `k` is absent (in a dict the first binding is the only one). -/
def dictGet (d : Dist) (k : String) : Option ℚ :=
  match d with
  | [] => none
  | (k', v) :: rest => if k' = k then some v else dictGet rest k

/-- Value of `probs[k]` at a key the rule has already found in the dict
(0 as a dummy when absent; the rule never reads an absent key). -/
def probsGet (d : Dist) (k : String) : ℚ :=
  (dictGet d k).getD 0

/-- Test of interface.py line 25: `k.lower().startswith("anomaly")`,
with ASCII lowering, which agrees with Python on the model's labels. -/
def isAnomalyKey (k : String) : Bool :=
  "anomaly".data.isPrefixOf (k.data.map Char.toLower)

/-- interface.py line 25:
`anomaly_candidates = [k for k in probs if k.lower().startswith("anomaly")]`. -/
def anomalyCandidates (d : Dist) : List String :=
  (d.map Prod.fst).filter isAnomalyKey

/-- One step of CPython's `max`: the current best is replaced exactly
when the new item's key is strictly greater, so on ties the earlier
item is kept. -/
def maxStep (best q : String × ℚ) : String × ℚ :=
  if best.2 < q.2 then q else best

/-- interface.py line 40: `max(probs, key=probs.get)` paired with its
score, `none` on the empty dict (where CPython raises `ValueError`). -/
def pyMax (d : Dist) : Option (String × ℚ) :=
  match d with
  | [] => none
  | p :: rest => some (rest.foldl maxStep p)

/-- interface.py lines 28-36: the pair `label, score` right after the
anomaly branch, where `none` models Python's `None, None`: the first
anomaly candidate together with its probability, provided that
probability clears the threshold (`anomaly_score >= threshold`). -/
def anomalyChosen (probs : Dist) (threshold : ℚ) : Option (String × ℚ) :=
  match anomalyCandidates probs with
  | [] => none
  | a :: _ =>
    let s := probsGet probs a
    if threshold ≤ s then some (a, s) else none

/-- interface.py lines 25-41: the decision `(label, score)` computed by
`predict_log` from the distribution `probs` and `threshold`; `none`
when `probs` is empty, where Python's `max` raises `ValueError`. -/
def predict_decision (probs : Dist) (threshold : ℚ) : Option (String × ℚ) :=
  match anomalyChosen probs threshold with
  | some p => some p
  | none =>
    match pyMax probs with
    | none => none
    | some m => some (m.1, probsGet probs m.1)

/-- Return value of `predict_log` (interface.py lines 43-48). The raw
pipeline output is a sequence of (label, score) pairs; the dict
comprehension of line 22 preserves it when labels are distinct, so
`raw` and `probs` hold the same association list here. -/
structure PredictResult where
  label : String
  score : ℚ
  probs : Dist
  raw : Dist
deriving DecidableEq

/-- interface.py lines 6-48: `predict_log`, with its process-global
state made explicit: `model` stands for the loaded pipeline `pipe` and
`debugPrinted` for the global `DEBUG_PRINTED` flag; the one-time debug
print has no effect besides setting the flag. The first component is
the returned dict, `none` standing for a raised exception. -/
def predict_log (model : String → Dist) (text : String) (threshold : ℚ)
    (debugPrinted : Bool) : Option PredictResult × Bool :=
  let raw := model text
  let debugPrinted' := if debugPrinted then debugPrinted else true
  let probs := raw
  ((predict_decision probs threshold).map fun p =>
    { label := p.1, score := p.2, probs := probs, raw := raw },
   debugPrinted')

/-- schemas.py lines 3-4: the request body of `/predict`. -/
structure LogRequest where
  text : String

/-- schemas.py lines 6-8: the response model, with exactly the two
fields `label` and `score`. -/
structure LogResponse where
  label : String
  score : ℚ
deriving DecidableEq

/-- The rational 1/2 in reduced constructor form, so that the kernel
can evaluate comparisons against it. -/
def rHalf : ℚ := ⟨1, 2, by decide, Nat.coprime_one_left 2⟩

/-- The rational 1/10 in reduced constructor form. -/
def r01 : ℚ := ⟨1, 10, by decide, by decide⟩

/-- The rational 3/10 in reduced constructor form. -/
def r03 : ℚ := ⟨3, 10, by decide, by decide⟩

/-- The rational 7/10 in reduced constructor form. -/
def r07 : ℚ := ⟨7, 10, by decide, by decide⟩

/-- The rational 9/10 in reduced constructor form. -/
def r09 : ℚ := ⟨9, 10, by decide, by decide⟩

/-- Default value 0.5 of the `threshold` argument in `predict_log`'s
signature (interface.py line 6). -/
def DEFAULT_THRESHOLD : ℚ := rHalf

/-- main.py lines 7-10: the `/predict` handler calls `predict_log` with
the request text only, hence with the default threshold, and keeps just
`label` and `score` of the result; a `none` result propagates the
exception instead of producing a response body. -/
def predict (model : String → Dist) (debugPrinted : Bool)
    (request : LogRequest) : Option LogResponse × Bool :=
  let res := predict_log model request.text DEFAULT_THRESHOLD debugPrinted
  (res.1.map fun r => { label := r.label, score := r.score }, res.2)

/-- A binding found by `dictGet` is a binding of the dict. -/
theorem dictGet_mem {d : Dist} {k : String} {v : ℚ}
    (h : dictGet d k = some v) : (k, v) ∈ d := by
  induction d with
  | nil => simp [dictGet] at h
  | cons p rest ih =>
    obtain ⟨k', v'⟩ := p
    by_cases hk : k' = k
    · subst hk
      simp [dictGet] at h
      simp [h]
    · simp only [dictGet, if_neg hk] at h
      exact List.mem_cons_of_mem _ (ih h)

/-- Every key of the dict has a binding. -/
theorem dictGet_isSome_of_mem {d : Dist} {k : String}
    (h : k ∈ d.map Prod.fst) : ∃ v, dictGet d k = some v := by
  induction d with
  | nil => simp at h
  | cons p rest ih =>
    obtain ⟨k', v'⟩ := p
    by_cases hk : k' = k
    · exact ⟨v', by simp [dictGet, hk]⟩
    · simp at h
      rcases h with h | h
      · exact absurd h.symm hk
      · obtain ⟨v, hv⟩ := ih (by simpa using h)
        exact ⟨v, by simp [dictGet, hk, hv]⟩

/-- At a present key, `dictGet` returns exactly `probsGet`. -/
theorem dictGet_eq_probsGet {d : Dist} {k : String}
    (h : k ∈ d.map Prod.fst) : dictGet d k = some (probsGet d k) := by
  obtain ⟨v, hv⟩ := dictGet_isSome_of_mem h
  rw [hv]
  simp [probsGet, hv]

/-- In a dict (distinct keys) each binding is found by `dictGet`. -/
theorem dictGet_of_mem {d : Dist} (hd : isDict d) {k : String} {v : ℚ}
    (h : (k, v) ∈ d) : dictGet d k = some v := by
  induction d with
  | nil => simp at h
  | cons p rest ih =>
    obtain ⟨k', v'⟩ := p
    simp at h
    have hd' : (rest.map Prod.fst).Nodup := (List.nodup_cons.mp hd).2
    rcases h with ⟨hk, hv⟩ | h
    · subst hk; subst hv; simp [dictGet]
    · have hkk : k' ≠ k := by
        intro he
        subst he
        exact (List.nodup_cons.mp hd).1
          (List.mem_map.mpr ⟨_, h, rfl⟩)
      simp only [dictGet, if_neg hkk]
      exact ih hd' h

/-- A head of a filtered list splits the list at its first occurrence:
everything before it fails the test. -/
theorem filter_head_split {α : Type} {p : α → Bool} {l : List α} {a : α}
    {rest : List α} (h : l.filter p = a :: rest) :
    ∃ l₁ l₂, l = l₁ ++ a :: l₂ ∧ (∀ x ∈ l₁, p x = false) ∧ p a = true := by
  induction l with
  | nil => simp at h
  | cons b l ih =>
    by_cases hb : p b = true
    · rw [List.filter_cons_of_pos hb] at h
      injection h with h1 h2
      subst h1
      exact ⟨[], l, rfl, by simp, hb⟩
    · rw [List.filter_cons_of_neg hb] at h
      obtain ⟨l₁, l₂, h1, h2, h3⟩ := ih h
      refine ⟨b :: l₁, l₂, by simp [h1], ?_, h3⟩
      intro x hx
      rcases List.mem_cons.mp hx with rfl | hx
      · simpa using hb
      · exact h2 x hx

/-- Behaviour of the CPython `max` fold: the result dominates the
initial item and every list item, and it is either the initial item or
a list item that strictly exceeds the initial item and everything
listed before it. -/
theorem foldl_maxStep_spec (l : Dist) : ∀ init : String × ℚ,
    init.2 ≤ (l.foldl maxStep init).2 ∧
    (∀ q ∈ l, q.2 ≤ (l.foldl maxStep init).2) ∧
    (l.foldl maxStep init = init ∨
      ∃ l₁ l₂, l = l₁ ++ (l.foldl maxStep init) :: l₂ ∧
        init.2 < (l.foldl maxStep init).2 ∧
        ∀ q ∈ l₁, q.2 < (l.foldl maxStep init).2) := by
  induction l with
  | nil => exact fun init => ⟨le_refl _, by simp, Or.inl rfl⟩
  | cons q l ih =>
    intro init
    rw [List.foldl_cons]
    by_cases hq : init.2 < q.2
    · have hstep : maxStep init q = q := by simp [maxStep, hq]
      rw [hstep]
      obtain ⟨ih1, ih2, ih3⟩ := ih q
      refine ⟨le_of_lt (lt_of_lt_of_le hq ih1), ?_, ?_⟩
      · intro x hx
        rcases List.mem_cons.mp hx with rfl | hx
        · exact ih1
        · exact ih2 x hx
      · rcases ih3 with heq | ⟨l₁, l₂, hsplit, hlt, hall⟩
        · refine Or.inr ⟨[], l, ?_, ?_, by simp⟩
          · rw [heq]
            rfl
          · rw [heq]
            exact hq
        · refine Or.inr ⟨q :: l₁, l₂, by rw [List.cons_append, ← hsplit], lt_trans hq hlt, ?_⟩
          intro x hx
          rcases List.mem_cons.mp hx with rfl | hx
          · exact hlt
          · exact hall x hx
    · have hstep : maxStep init q = init := by simp [maxStep, hq]
      rw [hstep]
      obtain ⟨ih1, ih2, ih3⟩ := ih init
      refine ⟨ih1, ?_, ?_⟩
      · intro x hx
        rcases List.mem_cons.mp hx with rfl | hx
        · exact le_trans (not_lt.mp hq) ih1
        · exact ih2 x hx
      · rcases ih3 with heq | ⟨l₁, l₂, hsplit, hlt, hall⟩
        · exact Or.inl heq
        · refine Or.inr ⟨q :: l₁, l₂, by rw [List.cons_append, ← hsplit], hlt, ?_⟩
          intro x hx
          rcases List.mem_cons.mp hx with rfl | hx
          · exact lt_of_le_of_lt (not_lt.mp hq) hlt
          · exact hall x hx

/-- The chosen maximum is in the list, dominates every item, and every
earlier item is strictly below it: CPython `max` keeps the first of the
tied maxima. -/
theorem pyMax_spec {d : Dist} {m : String × ℚ} (h : pyMax d = some m) :
    (∀ q ∈ d, q.2 ≤ m.2) ∧
    ∃ l₁ l₂, d = l₁ ++ m :: l₂ ∧ ∀ q ∈ l₁, q.2 < m.2 := by
  cases d with
  | nil => simp [pyMax] at h
  | cons p rest =>
    have hm : rest.foldl maxStep p = m := by simpa [pyMax] using h
    obtain ⟨h1, h2, h3⟩ := foldl_maxStep_spec rest p
    rw [hm] at h1 h2 h3
    constructor
    · intro q hq
      rcases List.mem_cons.mp hq with rfl | hq
      · exact h1
      · exact h2 q hq
    · rcases h3 with heq | ⟨l₁, l₂, hsplit, hlt, hall⟩
      · exact ⟨[], rest, by simp [heq], by simp⟩
      · refine ⟨p :: l₁, l₂, by simp [hsplit], ?_⟩
        intro q hq
        rcases List.mem_cons.mp hq with rfl | hq
        · exact hlt
        · exact hall q hq

/-- Python's `max` produces a value on every non-empty dict. -/
theorem pyMax_isSome {d : Dist} (h : d ≠ []) : ∃ m, pyMax d = some m := by
  cases d with
  | nil => exact absurd rfl h
  | cons p rest => exact ⟨rest.foldl maxStep p, rfl⟩

/-- The first anomaly candidate is a key of the dict passing the
anomaly test. -/
theorem anomalyCandidates_head {d : Dist} {a : String} {rest : List String}
    (h : anomalyCandidates d = a :: rest) :
    a ∈ d.map Prod.fst ∧ isAnomalyKey a = true := by
  have ha : a ∈ (d.map Prod.fst).filter isAnomalyKey := by
    rw [show (d.map Prod.fst).filter isAnomalyKey = anomalyCandidates d from rfl, h]
    exact List.mem_cons_self a rest
  exact ⟨List.mem_of_mem_filter ha, List.of_mem_filter ha⟩

/-- The anomaly branch declines exactly when there is no candidate or
the first candidate's probability is below the threshold. -/
theorem anomalyChosen_eq_none {d : Dist} {t : ℚ}
    (h : anomalyCandidates d = [] ∨
      ∃ a rest, anomalyCandidates d = a :: rest ∧ probsGet d a < t) :
    anomalyChosen d t = none := by
  rcases h with h | ⟨a, rest, hc, hlt⟩
  · unfold anomalyChosen
    rw [h]
  · unfold anomalyChosen
    rw [hc]
    show (if t ≤ probsGet d a then some (a, probsGet d a) else none) = none
    rw [if_neg (not_le.mpr hlt)]

/-- When the anomaly branch declines, the decision is the first binding
of the dict attaining the globally maximal probability, with that
probability as score. -/
theorem decision_fallback_spec {d : Dist} {t : ℚ} (hd : isDict d)
    (hne : d ≠ []) (hc : anomalyChosen d t = none) :
    ∃ l s, predict_decision d t = some (l, s) ∧
      (∀ q ∈ d, q.2 ≤ s) ∧
      ∃ l₁ l₂, d = l₁ ++ (l, s) :: l₂ ∧ ∀ q ∈ l₁, q.2 < s := by
  obtain ⟨m, hm⟩ := pyMax_isSome hne
  obtain ⟨hmax, l₁, l₂, hsplit, hall⟩ := pyMax_spec hm
  have hmem : m ∈ d := by
    rw [hsplit]
    exact List.mem_append_right _ (List.mem_cons_self _ _)
  have hkey : dictGet d m.1 = some m.2 := dictGet_of_mem hd (by simpa using hmem)
  have hp : probsGet d m.1 = m.2 := by simp [probsGet, hkey]
  refine ⟨m.1, m.2, ?_, hmax, ?_⟩
  · simp [predict_decision, hc, hm, hp]
  · exact ⟨l₁, l₂, by simpa using hsplit, hall⟩

/-- The decision of a non-empty dict is a binding of the dict, with the
score read back off the dict. -/
theorem decision_label_score {d : Dist} (t : ℚ) (hne : d ≠ []) :
    ∃ l s, predict_decision d t = some (l, s) ∧ l ∈ d.map Prod.fst ∧
      dictGet d l = some s := by
  cases hc : anomalyChosen d t with
  | some p =>
    obtain ⟨l, s⟩ := p
    have hdec : predict_decision d t = some (l, s) := by
      simp [predict_decision, hc]
    cases hcand : anomalyCandidates d with
    | nil => simp [anomalyChosen, hcand] at hc
    | cons a rest =>
      simp only [anomalyChosen, hcand] at hc
      by_cases ht : t ≤ probsGet d a
      · rw [if_pos ht] at hc
        injection hc with hc2
        injection hc2 with h1 h2
        subst h1
        subst h2
        have hmem := (anomalyCandidates_head hcand).1
        exact ⟨a, probsGet d a, hdec, hmem, dictGet_eq_probsGet hmem⟩
      · rw [if_neg ht] at hc
        cases hc
  | none =>
    obtain ⟨m, hm⟩ := pyMax_isSome hne
    obtain ⟨-, l₁, l₂, hsplit, -⟩ := pyMax_spec hm
    have hmem : m.1 ∈ d.map Prod.fst := by
      rw [hsplit]
      simp
    refine ⟨m.1, probsGet d m.1, ?_, hmem, dictGet_eq_probsGet hmem⟩
    simp [predict_decision, hc, hm]

/-- When the first anomaly candidate clears the threshold, the decision
is that candidate with its probability. -/
theorem decision_anomaly_taken {d : Dist} {t : ℚ} {a : String}
    {rest : List String} (hc : anomalyCandidates d = a :: rest)
    (ht : t ≤ probsGet d a) :
    predict_decision d t = some (a, probsGet d a) := by
  have hcho : anomalyChosen d t = some (a, probsGet d a) := by
    unfold anomalyChosen
    rw [hc]
    show (if t ≤ probsGet d a then some (a, probsGet d a) else none) = _
    rw [if_pos ht]
  simp [predict_decision, hcho]

/-- Under the fallback condition the decision is a binding of the dict
attaining the globally maximal probability. -/
theorem decision_fallback_max {d : Dist} {t : ℚ} (hd : isDict d)
    (hne : d ≠ [])
    (hfb : anomalyCandidates d = [] ∨
      ∃ a rest, anomalyCandidates d = a :: rest ∧ probsGet d a < t) :
    ∃ l s, predict_decision d t = some (l, s) ∧ (l, s) ∈ d ∧
      ∀ q ∈ d, q.2 ≤ s := by
  obtain ⟨l, s, h1, h2, l₁, l₂, hsplit, -⟩ :=
    decision_fallback_spec hd hne (anomalyChosen_eq_none hfb)
  refine ⟨l, s, h1, ?_, h2⟩
  rw [hsplit]
  exact List.mem_append_right _ (List.mem_cons_self _ _)

/-- C1: for every non-empty distribution with probabilities in [0,1]
and every threshold, the decision returned by the rule carries a label
that is a key of the distribution and a score equal to the
distribution's value at that label. -/
theorem predict_label_is_key (d : Dist) (t : ℚ) (hd : isDict d)
    (hne : d ≠ []) (hrange : ∀ q ∈ d, 0 ≤ q.2 ∧ q.2 ≤ 1) :
    ∃ l s, predict_decision d t = some (l, s) ∧ l ∈ d.map Prod.fst ∧
      dictGet d l = some s :=
  decision_label_score t hne

/-- Witness for C1 at d = {"Normal": 0.9, "Anomaly": 0.1}, t = 0.5. -/
theorem predict_label_is_key_witness :
    isDict [("Normal", r09), ("Anomaly", r01)] ∧
    ([("Normal", r09), ("Anomaly", r01)] : Dist) ≠ [] ∧
    (∀ q ∈ ([("Normal", r09), ("Anomaly", r01)] : Dist), 0 ≤ q.2 ∧ q.2 ≤ 1) ∧
    ∃ l s, predict_decision [("Normal", r09), ("Anomaly", r01)] DEFAULT_THRESHOLD
        = some (l, s) ∧
      l ∈ ([("Normal", r09), ("Anomaly", r01)] : Dist).map Prod.fst ∧
      dictGet [("Normal", r09), ("Anomaly", r01)] l = some s :=
  ⟨by decide, by decide, by decide,
    predict_label_is_key _ DEFAULT_THRESHOLD (by decide) (by decide) (by decide)⟩

/-- C2: when an anomaly-prefixed label exists and the selected (first)
candidate's probability is at least the threshold, the decision is that
candidate with its probability — whatever the other probabilities are. -/
theorem predict_anomaly_overrides (d : Dist) (t : ℚ) (a : String)
    (rest : List String) (hd : isDict d)
    (hc : anomalyCandidates d = a :: rest) (ht : t ≤ probsGet d a) :
    predict_decision d t = some (a, probsGet d a) :=
  decision_anomaly_taken hc ht

/-- Witness for C2 at d = {"Normal": 0.7, "Anomaly": 0.3}, t = 0.3: the
anomaly label wins although "Normal" has the strictly larger
probability. -/
theorem predict_anomaly_overrides_witness :
    anomalyCandidates [("Normal", r07), ("Anomaly", r03)] = ["Anomaly"] ∧
    r03 ≤ probsGet [("Normal", r07), ("Anomaly", r03)] "Anomaly" ∧
    probsGet [("Normal", r07), ("Anomaly", r03)] "Anomaly"
      < probsGet [("Normal", r07), ("Anomaly", r03)] "Normal" ∧
    predict_decision [("Normal", r07), ("Anomaly", r03)] r03
      = some ("Anomaly", probsGet [("Normal", r07), ("Anomaly", r03)] "Anomaly") :=
  ⟨by decide, by decide, by decide,
    predict_anomaly_overrides _ r03 "Anomaly" [] (by decide) (by decide) (by decide)⟩

/-- C3: when no label matches the anomaly test, or the selected
candidate's probability is strictly below the threshold, the decision
is a binding of the distribution attaining the globally maximal
probability, with that probability as its score. -/
theorem predict_fallback_max (d : Dist) (t : ℚ) (hd : isDict d)
    (hne : d ≠ [])
    (hfb : anomalyCandidates d = [] ∨
      ∃ a rest, anomalyCandidates d = a :: rest ∧ probsGet d a < t) :
    ∃ l s, predict_decision d t = some (l, s) ∧ (l, s) ∈ d ∧
      ∀ q ∈ d, q.2 ≤ s :=
  decision_fallback_max hd hne hfb

/-- Witness for C3 at d = {"Normal": 0.7, "Anomaly": 0.3}, t = 0.5: the
anomaly probability is below the threshold, so the global maximum
"Normal" is the decision. -/
theorem predict_fallback_max_witness :
    (∃ a rest, anomalyCandidates [("Normal", r07), ("Anomaly", r03)] = a :: rest ∧
      probsGet [("Normal", r07), ("Anomaly", r03)] a < DEFAULT_THRESHOLD) ∧
    ∃ l s, predict_decision [("Normal", r07), ("Anomaly", r03)] DEFAULT_THRESHOLD
        = some (l, s) ∧
      (l, s) ∈ ([("Normal", r07), ("Anomaly", r03)] : Dist) ∧
      ∀ q ∈ ([("Normal", r07), ("Anomaly", r03)] : Dist), q.2 ≤ s :=
  ⟨⟨"Anomaly", [], by decide, by decide⟩,
    predict_fallback_max _ DEFAULT_THRESHOLD (by decide) (by decide)
      (Or.inr ⟨"Anomaly", [], by decide, by decide⟩)⟩

/-- C4: on the empty distribution the rule produces no decision, for
every threshold: `none` models the error Python raises there (`max` on
an empty dict). -/
theorem predict_empty_fails (t : ℚ) : predict_decision [] t = none := rfl

/-- C5: the threshold comparison is applied literally with no range
check: with probabilities in [0,1], a threshold above 1 always falls
back to the global maximum, and a threshold at most 0 always takes the
anomaly branch when a candidate exists. -/
theorem predict_threshold_literal (d : Dist) (t : ℚ) (hd : isDict d)
    (hne : d ≠ []) (hrange : ∀ q ∈ d, 0 ≤ q.2 ∧ q.2 ≤ 1) :
    (1 < t → ∃ l s, predict_decision d t = some (l, s) ∧ (l, s) ∈ d ∧
      ∀ q ∈ d, q.2 ≤ s) ∧
    (t ≤ 0 → ∀ a rest, anomalyCandidates d = a :: rest →
      predict_decision d t = some (a, probsGet d a)) := by
  constructor
  · intro hgt
    have hfb : anomalyCandidates d = [] ∨
        ∃ a rest, anomalyCandidates d = a :: rest ∧ probsGet d a < t := by
      cases hcand : anomalyCandidates d with
      | nil => exact Or.inl rfl
      | cons a rest =>
        refine Or.inr ⟨a, rest, rfl, ?_⟩
        have hmem := (anomalyCandidates_head hcand).1
        have hvd : (a, probsGet d a) ∈ d := dictGet_mem (dictGet_eq_probsGet hmem)
        exact lt_of_le_of_lt (hrange _ hvd).2 hgt
    exact decision_fallback_max hd hne hfb
  · intro hle a rest hcand
    have hmem := (anomalyCandidates_head hcand).1
    have hvd : (a, probsGet d a) ∈ d := dictGet_mem (dictGet_eq_probsGet hmem)
    exact decision_anomaly_taken hcand (le_trans hle (hrange _ hvd).1)

/-- Witness for C5 at d = {"Normal": 0.7, "Anomaly": 0.3}: with t = 2
the decision is the global maximum; with t = 0 the anomaly branch is
taken. -/
theorem predict_threshold_literal_witness :
    (∃ l s, predict_decision [("Normal", r07), ("Anomaly", r03)] 2 = some (l, s) ∧
      (l, s) ∈ ([("Normal", r07), ("Anomaly", r03)] : Dist) ∧
      ∀ q ∈ ([("Normal", r07), ("Anomaly", r03)] : Dist), q.2 ≤ s) ∧
    predict_decision [("Normal", r07), ("Anomaly", r03)] 0
      = some ("Anomaly", probsGet [("Normal", r07), ("Anomaly", r03)] "Anomaly") :=
  ⟨(predict_threshold_literal _ 2 (by decide) (by decide) (by decide)).1 (by norm_num),
   (predict_threshold_literal _ 0 (by decide) (by decide) (by decide)).2 (le_refl 0)
     "Anomaly" [] (by decide)⟩

/-- C6: the returned decision depends only on the distribution and the
threshold: two invocations with the same inputs agree, whatever the
state of the global debug flag, and a non-empty distribution always
yields a decision. -/
theorem predict_log_deterministic (model : String → Dist) (text : String)
    (t : ℚ) (dbg₁ dbg₂ : Bool) (hne : model text ≠ []) :
    (predict_log model text t dbg₁).1 = (predict_log model text t dbg₂).1 ∧
    ∃ r, (predict_log model text t dbg₁).1 = some r := by
  constructor
  · rfl
  · obtain ⟨l, s, h1, -, -⟩ := decision_label_score (d := model text) t hne
    exact ⟨⟨l, s, model text, model text⟩, by simp [predict_log, h1]⟩

/-- Witness for C6: the same call with the debug flag unset and set
(its state after the first call) gives the same decision. -/
theorem predict_log_deterministic_witness :
    ((fun _ : String => [("Normal", (1:ℚ))]) "log line" ≠ []) ∧
    ((predict_log (fun _ => [("Normal", 1)]) "log line" DEFAULT_THRESHOLD false).1
      = (predict_log (fun _ => [("Normal", 1)]) "log line" DEFAULT_THRESHOLD true).1 ∧
     ∃ r, (predict_log (fun _ => [("Normal", 1)]) "log line" DEFAULT_THRESHOLD false).1
        = some r) :=
  ⟨by decide,
    predict_log_deterministic _ "log line" DEFAULT_THRESHOLD false true (by decide)⟩

/-- C7: under the fallback, the decision is the first binding of the
enumeration order attaining the globally maximal probability — a single
fixed choice among tied maxima, identical on every call since the rule
is a function of (d, t). -/
theorem predict_tie_break_first (d : Dist) (t : ℚ) (hd : isDict d)
    (htie : ∃ p ∈ d, ∃ q ∈ d, p.1 ≠ q.1 ∧ p.2 = q.2 ∧ ∀ r ∈ d, r.2 ≤ p.2)
    (hfb : anomalyCandidates d = [] ∨
      ∃ a rest, anomalyCandidates d = a :: rest ∧ probsGet d a < t) :
    ∃ l s, predict_decision d t = some (l, s) ∧
      (∀ q ∈ d, q.2 ≤ s) ∧
      ∃ l₁ l₂, d = l₁ ++ (l, s) :: l₂ ∧ ∀ q ∈ l₁, q.2 < s := by
  have hne : d ≠ [] := by
    obtain ⟨p, hp, -⟩ := htie
    intro h
    rw [h] at hp
    simp at hp
  exact decision_fallback_spec hd hne (anomalyChosen_eq_none hfb)

/-- Witness for C7 at d = {"ClassA": 0.5, "ClassB": 0.5}, t = 0.5: the
maxima are tied and the first-declared "ClassA" is selected. -/
theorem predict_tie_break_first_witness :
    (∃ p ∈ ([("ClassA", rHalf), ("ClassB", rHalf)] : Dist),
      ∃ q ∈ ([("ClassA", rHalf), ("ClassB", rHalf)] : Dist),
        p.1 ≠ q.1 ∧ p.2 = q.2 ∧
        ∀ r ∈ ([("ClassA", rHalf), ("ClassB", rHalf)] : Dist), r.2 ≤ p.2) ∧
    predict_decision [("ClassA", rHalf), ("ClassB", rHalf)] rHalf
      = some ("ClassA", rHalf) ∧
    (∃ l s, predict_decision [("ClassA", rHalf), ("ClassB", rHalf)] rHalf
        = some (l, s) ∧
      (∀ q ∈ ([("ClassA", rHalf), ("ClassB", rHalf)] : Dist), q.2 ≤ s) ∧
      ∃ l₁ l₂, ([("ClassA", rHalf), ("ClassB", rHalf)] : Dist) = l₁ ++ (l, s) :: l₂ ∧
        ∀ q ∈ l₁, q.2 < s) :=
  ⟨by decide, by decide,
    predict_tie_break_first _ rHalf (by decide) (by decide) (Or.inl (by decide))⟩

/-- C8: with two or more anomaly candidates the rule still selects a
single stable candidate — the first matching key of the enumeration
order — as the anomaly label, scored with its probability. -/
theorem anomaly_candidate_first (d : Dist) (t : ℚ) (hd : isDict d)
    (hmany : 2 ≤ (anomalyCandidates d).length) :
    ∃ a, (anomalyCandidates d).head? = some a ∧
      (∃ l₁ l₂, d.map Prod.fst = l₁ ++ a :: l₂ ∧
        (∀ k ∈ l₁, isAnomalyKey k = false) ∧ isAnomalyKey a = true) ∧
      anomalyChosen d t
        = if t ≤ probsGet d a then some (a, probsGet d a) else none := by
  cases hcand : anomalyCandidates d with
  | nil =>
    rw [hcand] at hmany
    simp at hmany
  | cons a rest =>
    refine ⟨a, rfl, ?_, ?_⟩
    · exact filter_head_split
        (show (d.map Prod.fst).filter isAnomalyKey = a :: rest from hcand)
    · unfold anomalyChosen
      rw [hcand]

/-- Witness for C8 at d = {"Anomaly_A": 0.3, "anomalyB": 0.7}, t = 0.3:
both keys match the anomaly test and the first, "Anomaly_A", is the
selected candidate. -/
theorem anomaly_candidate_first_witness :
    2 ≤ (anomalyCandidates [("Anomaly_A", r03), ("anomalyB", r07)]).length ∧
    ∃ a, (anomalyCandidates [("Anomaly_A", r03), ("anomalyB", r07)]).head? = some a ∧
      (∃ l₁ l₂, ([("Anomaly_A", r03), ("anomalyB", r07)] : Dist).map Prod.fst
          = l₁ ++ a :: l₂ ∧
        (∀ k ∈ l₁, isAnomalyKey k = false) ∧ isAnomalyKey a = true) ∧
      anomalyChosen [("Anomaly_A", r03), ("anomalyB", r07)] r03
        = if r03 ≤ probsGet [("Anomaly_A", r03), ("anomalyB", r07)] a
          then some (a, probsGet [("Anomaly_A", r03), ("anomalyB", r07)] a)
          else none :=
  ⟨by decide, anomaly_candidate_first _ r03 (by decide) (by decide)⟩

/-- C9: the handler's response holds exactly the rule's label and score
(the distribution and raw output carried in the rule's result are
dropped), and the handler always runs the rule at the default threshold
1/2 — the request carries only `text`, so HTTP offers no way to supply
another one. -/
theorem predict_response_shape (model : String → Dist) (dbg : Bool)
    (request : LogRequest) (r : PredictResult)
    (h : (predict_log model request.text DEFAULT_THRESHOLD dbg).1 = some r) :
    (predict model dbg request).1
      = some { label := r.label, score := r.score } ∧
    DEFAULT_THRESHOLD = 1 / 2 := by
  constructor
  · simp [predict, h]
  · rw [DEFAULT_THRESHOLD, rHalf, Rat.mk'_eq_divInt, Rat.divInt_eq_div]
    norm_num

/-- Witness for C9 with a provider scoring everything as
{"Normal": 1}. -/
theorem predict_response_shape_witness :
    ((predict_log (fun _ => [("Normal", 1)]) (LogRequest.mk "boot ok").text
        DEFAULT_THRESHOLD false).1
      = some (PredictResult.mk "Normal" 1 [("Normal", 1)] [("Normal", 1)])) ∧
    ((predict (fun _ => [("Normal", 1)]) false (LogRequest.mk "boot ok")).1
      = some (LogResponse.mk "Normal" 1) ∧
     DEFAULT_THRESHOLD = 1 / 2) :=
  ⟨by decide,
    predict_response_shape (fun _ => [("Normal", 1)]) false (LogRequest.mk "boot ok")
      (PredictResult.mk "Normal" 1 [("Normal", 1)] [("Normal", 1)]) (by decide)⟩

/-- C10: a probability outside [0,1] is not rejected: the rule applies
unchanged and still returns a key of the distribution with the value
stored at it. -/
theorem predict_no_range_check (d : Dist) (t : ℚ) (hd : isDict d)
    (hne : d ≠ []) (hout : ∃ q ∈ d, q.2 < 0 ∨ 1 < q.2) :
    ∃ l s, predict_decision d t = some (l, s) ∧ l ∈ d.map Prod.fst ∧
      dictGet d l = some s :=
  decision_label_score t hne

/-- Witness for C10 at d = {"Anomaly": 2, "Normal": -1}, t = 3: both
probabilities are out of range, yet a decision is produced. -/
theorem predict_no_range_check_witness :
    isDict [("Anomaly", (2:ℚ)), ("Normal", -1)] ∧
    ([("Anomaly", (2:ℚ)), ("Normal", -1)] : Dist) ≠ [] ∧
    (∃ q ∈ ([("Anomaly", (2:ℚ)), ("Normal", -1)] : Dist), q.2 < 0 ∨ 1 < q.2) ∧
    ∃ l s, predict_decision [("Anomaly", (2:ℚ)), ("Normal", -1)] 3 = some (l, s) ∧
      l ∈ ([("Anomaly", (2:ℚ)), ("Normal", -1)] : Dist).map Prod.fst ∧
      dictGet [("Anomaly", (2:ℚ)), ("Normal", -1)] l = some s :=
  ⟨by decide, by decide, by decide,
    predict_no_range_check _ 3 (by decide) (by decide) (by decide)⟩

end AnomalyDetection
